import Mathlib

/-!
Shallow embedding of the technical-indicator core of the crypto analysis
dashboard (the `useTechnicalAnalysis` and `useRiskReturnAnalysis` hooks and
the `calculateSMA` / `calculateRSI` functions nested in them).

Closing prices and timestamps are modelled as rationals (exact arithmetic in
place of IEEE floats); the loops of the source, which run an index `i` from a
start value while `i < data.length`, are modelled as fuel-indexed structural
recursions where the fuel (`data.length`) bounds the number of remaining
iterations, so every function is executable by the kernel.

Array indexing `data[i]` is modelled as `List.getD data i 0`; every access the
source performs is within bounds, so the default is never observable.
-/

namespace CryptoAnalysis

/-- Chart point `{x, y}` = (timestamp, value); both exact rationals. -/
abbrev IndicatorPoint := ℚ × ℚ

/-- One row of the market snapshot consumed by `useRiskReturnAnalysis`.
The code reads the 24h percentage change through an untyped (`as any`)
access, so the field may be absent: it is an `Option`. -/
structure CryptoStats where
  price_change_percentage_24h_in_currency : Option ℚ
  name : String
  image : String
deriving DecidableEq

/-- Scatter point produced by `useRiskReturnAnalysis`: x = risk (annualized
volatility), y = annualized return, plus the label fields carried along. -/
structure RiskReturnPoint where
  x : ℝ
  y : ℝ
  name : String
  image : String

/-- Loop body of `calculateSMA`: `for (let i = period - 1; i < data.length; i++)`
pushes `{x: prices[i][0], y: data.slice(i - period + 1, i + 1).sum / period}`.
The fuel argument only bounds the number of remaining iterations. -/
def smaAux (data ts : List ℚ) (period : ℕ) : ℕ → ℕ → List IndicatorPoint
  | 0, _ => []
  | fuel + 1, i =>
    if i < data.length then
      (ts.getD i 0, ((data.drop (i + 1 - period)).take period).sum / (period : ℚ))
        :: smaAux data ts period fuel (i + 1)
    else []

/-- The source's `calculateSMA(data, period)`; `ts` is the paired timestamp
series `prices[i][0]` the closure reads. -/
def calculateSMA (data ts : List ℚ) (period : ℕ) : List IndicatorPoint :=
  smaAux data ts period data.length (period - 1)

/-- Value of `data[j] - data[j-1]`, the consecutive-sample delta entering the
RSI accumulators at loop index `j`. -/
def delta (data : List ℚ) (j : ℕ) : ℚ :=
  data.getD j 0 - data.getD (j - 1) 0

/-- `if (change > 0) gains += change; else losses -= change;` applied to the
accumulator pair. -/
def addDelta (g l c : ℚ) : ℚ × ℚ :=
  if 0 < c then (g + c, l) else (g, l - c)

/-- `if (prevChange > 0) gains -= prevChange; else losses += prevChange;`
applied to the accumulator pair. -/
def removeDelta (g l c : ℚ) : ℚ × ℚ :=
  if 0 < c then (g - c, l) else (g, l + c)

/-- The emitted RSI value computed from the current accumulators:
`avgGain = gains / period`, `avgLoss = losses / period`,
`rs = avgGain / (avgLoss || 1)`, `100 - 100 / (1 + rs)`.
The JavaScript `avgLoss || 1` substitutes 1 exactly when `avgLoss` is zero. -/
def rsiEmit (period : ℕ) (g l : ℚ) : ℚ :=
  let avgGain := g / (period : ℚ)
  let avgLoss := l / (period : ℚ)
  let rs := avgGain / (if avgLoss = 0 then 1 else avgLoss)
  100 - 100 / (1 + rs)

/-- Loop body of `calculateRSI`: `for (let i = 1; i < data.length; i++)` adds
the entering delta, and when `i >= period` emits a point and removes the delta
`data[i - period + 1] - data[i - period]` that leaves the window. -/
def rsiAux (data ts : List ℚ) (period : ℕ) : ℕ → ℕ → ℚ → ℚ → List IndicatorPoint
  | 0, _, _, _ => []
  | fuel + 1, i, gains, losses =>
    if i < data.length then
      let s1 := addDelta gains losses (delta data i)
      if period ≤ i then
        let s2 := removeDelta s1.1 s1.2 (delta data (i - period + 1))
        (ts.getD i 0, rsiEmit period s1.1 s1.2)
          :: rsiAux data ts period fuel (i + 1) s2.1 s2.2
      else
        rsiAux data ts period fuel (i + 1) s1.1 s1.2
    else []

/-- The source's `calculateRSI(data, period = 14)`; `ts` is the paired
timestamp series. -/
def calculateRSI (data ts : List ℚ) (period : ℕ) : List IndicatorPoint :=
  rsiAux data ts period data.length 1 0 0

/-- `closingPrices.slice(-90)`: the trailing window of at most the 90 most
recent samples. -/
def recentWindow (closing : List ℚ) : List ℚ :=
  closing.drop (closing.length - 90)

/-- Aggregate returned by `useTechnicalAnalysis`. -/
structure TechnicalSnapshot where
  sma20 : List IndicatorPoint
  sma50 : List IndicatorPoint
  rsi : List IndicatorPoint
  support : Option ℚ
  resistance : Option ℚ
deriving DecidableEq

/-- The `useTechnicalAnalysis` hook: on an empty input it returns the empty
snapshot; otherwise it runs both SMAs, the RSI with its default window 14, and
takes `Math.min`/`Math.max` of the trailing 90-sample window (`Option`-valued
because `Math.min()` of an empty spread is not a number; the guard makes the
window nonempty whenever they are read). -/
def useTechnicalAnalysis (prices : List (ℚ × ℚ)) : TechnicalSnapshot :=
  if prices.length = 0 then ⟨[], [], [], none, none⟩
  else
    let closingPrices := prices.map Prod.snd
    let ts := prices.map Prod.fst
    { sma20 := calculateSMA closingPrices ts 20
      sma50 := calculateSMA closingPrices ts 50
      rsi := calculateRSI closingPrices ts 14
      support := (recentWindow closingPrices).min?
      resistance := (recentWindow closingPrices).max? }

/-- `coin[...price_change_percentage_24h_in_currency] / 100 || 0`: an absent
field divides to a non-number, which `|| 0` replaces by 0; a present field
gives `c / 100` (also replaced by 0 when that quotient is 0, unobservably). -/
def dailyReturnOf (o : Option ℚ) : ℚ :=
  match o with
  | none => 0
  | some c => if c / 100 = 0 then 0 else c / 100

/-- The `useRiskReturnAnalysis` hook: one scatter point per market row, in
order, with `volatility = |dailyReturn| * sqrt 365` and
`annualReturn = (1 + dailyReturn)^365 - 1`. -/
noncomputable def useRiskReturnAnalysis (marketData : List CryptoStats) : List RiskReturnPoint :=
  if marketData.length = 0 then []
  else marketData.map fun coin =>
    let dailyReturn : ℚ := dailyReturnOf coin.price_change_percentage_24h_in_currency
    { x := |(dailyReturn : ℝ)| * Real.sqrt 365
      y := (1 + (dailyReturn : ℝ)) ^ (365 : ℕ) - 1
      name := coin.name
      image := coin.image }

/-! ### Naive reference implementation of the RSI

`calculateRSI` keeps `gains`/`losses` incrementally. The reference below
recomputes, at every emission index `i`, the full window sums of the positive
deltas and of the magnitudes of the negative deltas over the `period` most
recent deltas (indices `i - period + 1 .. i`), then applies the same formula.
-/

/-- Positive part of the delta at index `j` (what the loop adds to `gains`). -/
def posDelta (data : List ℚ) (j : ℕ) : ℚ := max (delta data j) 0

/-- Magnitude of the negative part of the delta at index `j` (what the loop
adds to `losses`). -/
def negDelta (data : List ℚ) (j : ℕ) : ℚ := max (-(delta data j)) 0

/-- Full-window sum of positive deltas over the window ending at index `i`. -/
def windowGains (data : List ℚ) (period i : ℕ) : ℚ :=
  ∑ j ∈ Finset.Ico (i - period + 1) (i + 1), posDelta data j

/-- Full-window sum of magnitudes of negative deltas over the window ending at
index `i`. -/
def windowLosses (data : List ℚ) (period i : ℕ) : ℚ :=
  ∑ j ∈ Finset.Ico (i - period + 1) (i + 1), negDelta data j

/-- Naive RSI value at emission index `i`: recompute both window sums in full,
then apply the emission formula. -/
def rsiValueAt (data : List ℚ) (period i : ℕ) : ℚ :=
  rsiEmit period (windowGains data period i) (windowLosses data period i)

/-- Loop of the naive RSI: same emission schedule as `rsiAux`, no state. -/
def naiveRSIAux (data ts : List ℚ) (period : ℕ) : ℕ → ℕ → List IndicatorPoint
  | 0, _ => []
  | fuel + 1, i =>
    if i < data.length then
      if period ≤ i then
        (ts.getD i 0, rsiValueAt data period i) :: naiveRSIAux data ts period fuel (i + 1)
      else naiveRSIAux data ts period fuel (i + 1)
    else []

/-- Naive O(W)-per-step RSI implementation. -/
def naiveRSI (data ts : List ℚ) (period : ℕ) : List IndicatorPoint :=
  naiveRSIAux data ts period data.length 1

/-- The accumulator-pair value the incremental loop holds at the start of
iteration `i`: the window sums over delta indices `i - period + 1 .. i - 1`. -/
def preGains (data : List ℚ) (period i : ℕ) : ℚ :=
  ∑ j ∈ Finset.Ico (i - period + 1) i, posDelta data j

/-- Companion of `preGains` for the `losses` accumulator. -/
def preLosses (data : List ℚ) (period i : ℕ) : ℚ :=
  ∑ j ∈ Finset.Ico (i - period + 1) i, negDelta data j

example : calculateSMA [1, 2, 3, 4] [10, 20, 30, 40] 2 =
    [(20, 3/2), (30, 5/2), (40, 7/2)] := by
  norm_num [calculateSMA, smaAux]

example : calculateRSI [1, 2, 3] [0, 1, 2] 2 = [(2, 50)] := by
  norm_num [calculateRSI, rsiAux, delta, addDelta, removeDelta, rsiEmit]

example : naiveRSI [1, 2, 3] [0, 1, 2] 2 = [(2, 50)] := by
  norm_num [naiveRSI, naiveRSIAux, rsiValueAt, windowGains, windowLosses,
    Finset.sum_Ico_eq_sum_range, Finset.sum_range_succ, Finset.sum_range_zero,
    posDelta, negDelta, delta, rsiEmit]

example : calculateRSI [1, 5, 2, 3, 3] [0, 1, 2, 3, 4] 2 =
    [(2, 400/7), (3, 25), (4, 100/3)] := by
  norm_num [calculateRSI, rsiAux, delta, addDelta, removeDelta, rsiEmit]

example : naiveRSI [1, 5, 2, 3, 3] [0, 1, 2, 3, 4] 2 =
    [(2, 400/7), (3, 25), (4, 100/3)] := by
  norm_num [naiveRSI, naiveRSIAux, rsiValueAt, windowGains, windowLosses,
    Finset.sum_Ico_eq_sum_range, Finset.sum_range_succ, Finset.sum_range_zero,
    posDelta, negDelta, delta, rsiEmit]

example : (useTechnicalAnalysis [(0, 5), (1, 3), (2, 8), (3, 1), (4, 9)]).support
    = some 1 := by
  norm_num [useTechnicalAnalysis, recentWindow, List.min?, min_def]

example : (useTechnicalAnalysis [(0, 5), (1, 3), (2, 8), (3, 1), (4, 9)]).resistance
    = some 9 := by
  norm_num [useTechnicalAnalysis, recentWindow, List.max?, max_def]

/-! ### Helper lemmas: the sliding-window invariant -/

theorem addDelta_eq (g l c : ℚ) : addDelta g l c = (g + max c 0, l + max (-c) 0) := by
  unfold addDelta
  rcases lt_or_le 0 c with h | h
  · rw [if_pos h, max_eq_left h.le, max_eq_right (by linarith), add_zero]
  · rw [if_neg (not_lt.mpr h), max_eq_right h, max_eq_left (by linarith), add_zero, sub_eq_add_neg]

theorem removeDelta_eq (g l c : ℚ) : removeDelta g l c = (g - max c 0, l - max (-c) 0) := by
  unfold removeDelta
  rcases lt_or_le 0 c with h | h
  · rw [if_pos h, max_eq_left h.le, max_eq_right (by linarith), sub_zero]
  · rw [if_neg (not_lt.mpr h), max_eq_right h, max_eq_left (by linarith), sub_zero,
      sub_neg_eq_add]

theorem sumIco_window_split (f : ℕ → ℚ) {period i : ℕ} (hp : 1 ≤ period) (hi : 1 ≤ i) :
    ∑ j ∈ Finset.Ico (i - period + 1) (i + 1), f j
      = (∑ j ∈ Finset.Ico (i - period + 1) i, f j) + f i :=
  Finset.sum_Ico_succ_top (by omega) f

theorem sumIco_window_shift_lt (f : ℕ → ℚ) {period i : ℕ} (h : i < period) :
    ∑ j ∈ Finset.Ico (i + 1 - period + 1) (i + 1), f j
      = ∑ j ∈ Finset.Ico (i - period + 1) (i + 1), f j := by
  have hb : i + 1 - period + 1 = i - period + 1 := by omega
  rw [hb]

theorem sumIco_window_shift_ge (f : ℕ → ℚ) {period i : ℕ} (hp : 1 ≤ period) (h : period ≤ i) :
    ∑ j ∈ Finset.Ico (i + 1 - period + 1) (i + 1), f j
      = (∑ j ∈ Finset.Ico (i - period + 1) (i + 1), f j) - f (i - period + 1) := by
  rw [Finset.sum_eq_sum_Ico_succ_bot (show i - period + 1 < i + 1 by omega) f]
  have hb : i + 1 - period + 1 = i - period + 1 + 1 := by omega
  rw [hb]
  ring

theorem addDelta_pre (data : List ℚ) {period i : ℕ} (hp : 1 ≤ period) (hi : 1 ≤ i) :
    addDelta (preGains data period i) (preLosses data period i) (delta data i)
      = (windowGains data period i, windowLosses data period i) := by
  rw [addDelta_eq]
  unfold preGains preLosses windowGains windowLosses
  rw [sumIco_window_split (posDelta data) hp hi, sumIco_window_split (negDelta data) hp hi]
  rfl

theorem removeDelta_window (data : List ℚ) {period i : ℕ} (hp : 1 ≤ period) (h : period ≤ i) :
    removeDelta (windowGains data period i) (windowLosses data period i)
        (delta data (i - period + 1))
      = (preGains data period (i + 1), preLosses data period (i + 1)) := by
  rw [removeDelta_eq]
  unfold preGains preLosses windowGains windowLosses
  have hg := sumIco_window_shift_ge (posDelta data) hp h
  have hl := sumIco_window_shift_ge (negDelta data) hp h
  rw [hg, hl]
  rfl

theorem pre_succ_of_lt (data : List ℚ) {period i : ℕ} (h : i < period) :
    preGains data period (i + 1) = windowGains data period i ∧
    preLosses data period (i + 1) = windowLosses data period i := by
  unfold preGains preLosses windowGains windowLosses
  exact ⟨sumIco_window_shift_lt (posDelta data) h, sumIco_window_shift_lt (negDelta data) h⟩

/-- The emitted value of the naive implementation agrees with `rsiEmit` on the
true window sums, by definition. -/
theorem rsiValueAt_def (data : List ℚ) (period i : ℕ) :
    rsiValueAt data period i
      = rsiEmit period (windowGains data period i) (windowLosses data period i) := rfl

theorem rsiAux_eq_naiveRSIAux (data ts : List ℚ) (period : ℕ) (hp : 1 ≤ period) :
    ∀ fuel i, 1 ≤ i →
      rsiAux data ts period fuel i (preGains data period i) (preLosses data period i)
        = naiveRSIAux data ts period fuel i := by
  intro fuel
  induction fuel with
  | zero => intro i _; rfl
  | succ fuel ih =>
    intro i hi
    simp only [rsiAux, naiveRSIAux]
    by_cases hlen : i < data.length
    · simp only [if_pos hlen, addDelta_pre data hp hi]
      by_cases hper : period ≤ i
      · simp only [if_pos hper, removeDelta_window data hp hper]
        rw [rsiValueAt_def, ih (i + 1) (by omega)]
      · simp only [if_neg hper]
        have hpre := pre_succ_of_lt data (not_le.mp hper)
        rw [show windowGains data period i = preGains data period (i + 1) from hpre.1.symm,
          show windowLosses data period i = preLosses data period (i + 1) from hpre.2.symm,
          ih (i + 1) (by omega)]
    · simp only [if_neg hlen]

theorem preGains_one (data : List ℚ) {period : ℕ} (hp : 1 ≤ period) :
    preGains data period 1 = 0 := by
  unfold preGains
  rw [show (1 : ℕ) - period + 1 = 1 from by omega]
  simp

theorem preLosses_one (data : List ℚ) {period : ℕ} (hp : 1 ≤ period) :
    preLosses data period 1 = 0 := by
  unfold preLosses
  rw [show (1 : ℕ) - period + 1 = 1 from by omega]
  simp

theorem calculateRSI_eq_naiveRSI (data ts : List ℚ) {period : ℕ} (hp : 1 ≤ period) :
    calculateRSI data ts period = naiveRSI data ts period := by
  have h := rsiAux_eq_naiveRSIAux data ts period hp data.length 1 le_rfl
  rw [preGains_one data hp, preLosses_one data hp] at h
  exact h

/-! ### Closed form of the RSI emission schedule -/

theorem naiveRSIAux_closed (data ts : List ℚ) (period : ℕ) (hp : 1 ≤ period) :
    ∀ fuel i, 1 ≤ i → data.length ≤ fuel + i →
      naiveRSIAux data ts period fuel i
        = (List.range' (max i period) (data.length - max i period)).map
            (fun j => (ts.getD j 0, rsiValueAt data period j)) := by
  intro fuel
  induction fuel with
  | zero =>
    intro i hi hfuel
    have h0 : data.length - max i period = 0 :=
      Nat.sub_eq_zero_of_le (le_trans (by omega) (le_max_left i period))
    rw [h0]
    rfl
  | succ fuel ih =>
    intro i hi hfuel
    by_cases hlen : i < data.length
    · by_cases hper : period ≤ i
      · have hmax : max i period = i := max_eq_left hper
        have hmax1 : max (i + 1) period = i + 1 := max_eq_left (by omega)
        have hcount : data.length - i = (data.length - (i + 1)) + 1 := by omega
        simp only [naiveRSIAux, if_pos hlen, if_pos hper, hmax]
        rw [hcount, List.range'_succ, List.map_cons, ih (i + 1) (by omega) (by omega), hmax1]
      · have hmax : max i period = period := max_eq_right (by omega)
        have hmax1 : max (i + 1) period = period := max_eq_right (by omega)
        simp only [naiveRSIAux, if_pos hlen, if_neg hper, hmax]
        rw [ih (i + 1) (by omega) (by omega), hmax1]
    · have h0 : data.length - max i period = 0 :=
        Nat.sub_eq_zero_of_le (le_trans (by omega) (le_max_left i period))
      simp only [naiveRSIAux, if_neg hlen, h0]
      rfl

theorem calculateRSI_closed (data ts : List ℚ) {period : ℕ} (hp : 1 ≤ period) :
    calculateRSI data ts period
      = (List.range' period (data.length - period)).map
          (fun j => (ts.getD j 0, rsiValueAt data period j)) := by
  rw [calculateRSI_eq_naiveRSI data ts hp]
  unfold naiveRSI
  have h := naiveRSIAux_closed data ts period hp data.length 1 le_rfl (by omega)
  rwa [max_eq_right hp] at h

theorem mem_calculateRSI (data ts : List ℚ) {period : ℕ} (hp : 1 ≤ period)
    {p : IndicatorPoint} (hmem : p ∈ calculateRSI data ts period) :
    ∃ j, period ≤ j ∧ j < data.length ∧ p = (ts.getD j 0, rsiValueAt data period j) := by
  rw [calculateRSI_closed data ts hp] at hmem
  obtain ⟨j, hj, rfl⟩ := List.mem_map.mp hmem
  rw [List.mem_range'] at hj
  obtain ⟨k, hk, rfl⟩ := hj
  exact ⟨period + 1 * k, by omega, by omega, rfl⟩

/-! ### Bounds on the emitted value -/

theorem rsiEmit_eq (period : ℕ) (g l : ℚ) :
    rsiEmit period g l
      = 100 - 100 / (1 + (g / (period : ℚ)) /
          (if l / (period : ℚ) = 0 then 1 else l / (period : ℚ))) := rfl

theorem rsiEmit_nonneg_lt (period : ℕ) {g l : ℚ} (hg : 0 ≤ g) (hl : 0 ≤ l) :
    0 ≤ rsiEmit period g l ∧ rsiEmit period g l < 100 := by
  rw [rsiEmit_eq]
  have hA0 : 0 ≤ g / (period : ℚ) := div_nonneg hg (Nat.cast_nonneg period)
  have hL0 : 0 ≤ l / (period : ℚ) := div_nonneg hl (Nat.cast_nonneg period)
  have hd : 0 < (if l / (period : ℚ) = 0 then 1 else l / (period : ℚ)) := by
    split_ifs with h
    · norm_num
    · exact lt_of_le_of_ne hL0 (Ne.symm h)
  have hrs : 0 ≤ g / (period : ℚ) / (if l / (period : ℚ) = 0 then 1 else l / (period : ℚ)) :=
    div_nonneg hA0 hd.le
  constructor
  · have h1 : 100 / (1 + g / (period : ℚ) /
        (if l / (period : ℚ) = 0 then 1 else l / (period : ℚ))) ≤ 100 :=
      div_le_self (by norm_num) (by linarith)
    linarith
  · have h2 : 0 < 100 / (1 + g / (period : ℚ) /
        (if l / (period : ℚ) = 0 then 1 else l / (period : ℚ))) :=
      div_pos (by norm_num) (by linarith)
    linarith

theorem windowGains_nonneg (data : List ℚ) (period i : ℕ) :
    0 ≤ windowGains data period i :=
  Finset.sum_nonneg fun _ _ => le_max_right _ 0

theorem windowLosses_nonneg (data : List ℚ) (period i : ℕ) :
    0 ≤ windowLosses data period i :=
  Finset.sum_nonneg fun _ _ => le_max_right _ 0

theorem rsiValueAt_bounds (data : List ℚ) (period i : ℕ) :
    0 ≤ rsiValueAt data period i ∧ rsiValueAt data period i < 100 :=
  rsiEmit_nonneg_lt period (windowGains_nonneg data period i)
    (windowLosses_nonneg data period i)

/-! ### Closed form of the SMA -/

theorem smaAux_closed (data ts : List ℚ) (period : ℕ) :
    ∀ fuel i, data.length ≤ fuel + i →
      smaAux data ts period fuel i
        = (List.range' i (data.length - i)).map
            (fun j => (ts.getD j 0, ((data.drop (j + 1 - period)).take period).sum / (period : ℚ))) := by
  intro fuel
  induction fuel with
  | zero =>
    intro i hfuel
    have h0 : data.length - i = 0 := by omega
    rw [h0]
    rfl
  | succ fuel ih =>
    intro i hfuel
    by_cases hlen : i < data.length
    · have hcount : data.length - i = (data.length - (i + 1)) + 1 := by omega
      simp only [smaAux, if_pos hlen]
      rw [hcount, List.range'_succ, List.map_cons, ih (i + 1) (by omega)]
    · have h0 : data.length - i = 0 := by omega
      simp only [smaAux, if_neg hlen, h0]
      rfl

theorem calculateSMA_closed (data ts : List ℚ) (period : ℕ) :
    calculateSMA data ts period
      = (List.range' (period - 1) (data.length - (period - 1))).map
          (fun j => (ts.getD j 0, ((data.drop (j + 1 - period)).take period).sum / (period : ℚ))) :=
  smaAux_closed data ts period data.length (period - 1) (by omega)

theorem take_drop_sum (data : List ℚ) :
    ∀ W k : ℕ, k + W ≤ data.length →
      ((data.drop k).take W).sum = ∑ j ∈ Finset.range W, data.getD (k + j) 0 := by
  intro W
  induction W with
  | zero => intro k _; simp
  | succ W ih =>
    intro k h
    have hk : k < data.length := by omega
    rw [← List.getElem_cons_drop data k hk, List.take_succ_cons, List.sum_cons,
      ih (k + 1) (by omega), Finset.sum_range_succ']
    have h0 : data.getD (k + 0) 0 = data[k] := by
      rw [Nat.add_zero, List.getD_eq_getElem?_getD, List.getElem?_eq_getElem hk]
      rfl
    rw [h0]
    have hcongr : ∀ j ∈ Finset.range W, data.getD (k + 1 + j) 0 = data.getD (k + (j + 1)) 0 := by
      intro j _
      rw [show k + 1 + j = k + (j + 1) from by omega]
    rw [Finset.sum_congr rfl hcongr]
    ring

/-! ### Claim theorems: the RSI engine -/

/-- C1: at every emission index the incremental `gains`/`losses` accumulators
agree with the full window sums of positive deltas and of magnitudes of
negative deltas over the `period` most recent deltas, so the sliding-window
RSI emits, point for point, exactly what the naive implementation emits when
it recomputes both window sums in full at each emission. -/
theorem rsi_incremental_matches_naive (data ts : List ℚ) (period : ℕ) (hp : 1 ≤ period) :
    calculateRSI data ts period = naiveRSI data ts period :=
  calculateRSI_eq_naiveRSI data ts hp

theorem rsi_incremental_matches_naive_witness :
    1 ≤ 2 ∧ calculateRSI [1, 5, 2, 3, 3] [0, 1, 2, 3, 4] 2
      = naiveRSI [1, 5, 2, 3, 3] [0, 1, 2, 3, 4] 2 :=
  ⟨by norm_num, rsi_incremental_matches_naive [1, 5, 2, 3, 3] [0, 1, 2, 3, 4] 2 (by norm_num)⟩

/-- C6: every value the RSI engine emits lies in the closed interval [0, 100]. -/
theorem rsi_values_in_unit_range (data ts : List ℚ) (period : ℕ) (hp : 1 ≤ period) :
    ∀ p ∈ calculateRSI data ts period, 0 ≤ p.2 ∧ p.2 ≤ 100 := by
  intro p hmem
  obtain ⟨j, _, _, rfl⟩ := mem_calculateRSI data ts hp hmem
  exact ⟨(rsiValueAt_bounds data period j).1, (rsiValueAt_bounds data period j).2.le⟩

theorem rsi_values_in_unit_range_witness :
    0 ≤ ((2 : ℚ), (50 : ℚ)).2 ∧ ((2 : ℚ), (50 : ℚ)).2 ≤ 100 :=
  rsi_values_in_unit_range [1, 2, 3] [0, 1, 2] 2 (by norm_num) (2, 50)
    (by norm_num [calculateRSI, rsiAux, delta, addDelta, removeDelta, rsiEmit])

/-- C10: under exact arithmetic the RSI engine never emits exactly 100: the
guard substitutes divisor 1 when the window loss is zero, so RS is a finite
nonnegative rational and the emitted value 100 - 100/(1 + RS) is strictly
below 100 for every input sequence. -/
theorem rsi_never_reaches_100 (data ts : List ℚ) (period : ℕ) (hp : 1 ≤ period) :
    ∀ p ∈ calculateRSI data ts period, p.2 < 100 := by
  intro p hmem
  obtain ⟨j, _, _, rfl⟩ := mem_calculateRSI data ts hp hmem
  exact (rsiValueAt_bounds data period j).2

theorem rsi_never_reaches_100_witness :
    ((3 : ℚ), (25 : ℚ)).2 < 100 :=
  rsi_never_reaches_100 [1, 5, 2, 3, 3] [0, 1, 2, 3, 4] 2 (by norm_num) (3, 25)
    (by norm_num [calculateRSI, rsiAux, delta, addDelta, removeDelta, rsiEmit])

/-- C8: the RSI engine starts emitting at input index `period` (0-based), one
point per subsequent sample: the output length is `data.length - period`
(empty whenever the input is shorter than `period + 1`), and the k-th emitted
point carries the timestamp of input sample `period + k`. -/
theorem rsi_emission_schedule (data ts : List ℚ) (period : ℕ) (hp : 1 ≤ period) :
    (calculateRSI data ts period).length = data.length - period ∧
    ∀ k, k < data.length - period →
      ((calculateRSI data ts period).getD k (0, 0)).1 = ts.getD (period + k) 0 := by
  rw [calculateRSI_closed data ts hp]
  constructor
  · simp
  · intro k hk
    rw [List.getD_eq_getElem?_getD, List.getElem?_map, List.getElem?_range' period 1 hk]
    simp

theorem rsi_emission_schedule_witness :
    1 ≤ 2 ∧ (calculateRSI [1, 2, 3] [0, 1, 2] 2).length = ([1, 2, 3] : List ℚ).length - 2 :=
  ⟨by norm_num, (rsi_emission_schedule [1, 2, 3] [0, 1, 2] 2 (by norm_num)).1⟩

/-- C7: on a perfectly flat price sequence (every consecutive delta zero) of
length at least `period + 1`, the engine emits points and every emitted RSI
value is 0 (RS = gains/1 = 0 through the divisor-substitution guard), not 100. -/
theorem rsi_flat_emits_zero (data ts : List ℚ) (period : ℕ) (hp : 1 ≤ period)
    (hlen : period + 1 ≤ data.length)
    (hflat : ∀ j, j < data.length → data.getD j 0 = data.getD (j - 1) 0) :
    calculateRSI data ts period ≠ [] ∧ ∀ p ∈ calculateRSI data ts period, p.2 = 0 := by
  constructor
  · have hlenr : (calculateRSI data ts period).length = data.length - period := by
      rw [calculateRSI_closed data ts hp]
      simp
    exact List.length_pos.mp (by rw [hlenr]; omega)
  · intro p hmem
    obtain ⟨j, hj1, hj2, rfl⟩ := mem_calculateRSI data ts hp hmem
    show rsiValueAt data period j = 0
    have hzero : ∀ m ∈ Finset.Ico (j - period + 1) (j + 1), delta data m = 0 := by
      intro m hm
      rw [Finset.mem_Ico] at hm
      have hmlt : m < data.length := by omega
      unfold delta
      rw [hflat m hmlt, sub_self]
    have hg : windowGains data period j = 0 :=
      Finset.sum_eq_zero fun m hm => by unfold posDelta; rw [hzero m hm]; simp
    have hl : windowLosses data period j = 0 :=
      Finset.sum_eq_zero fun m hm => by unfold negDelta; rw [hzero m hm]; simp
    rw [rsiValueAt_def, hg, hl, rsiEmit_eq]
    norm_num

theorem rsi_flat_emits_zero_witness :
    calculateRSI [5, 5, 5] [0, 1, 2] 2 ≠ [] ∧
      ∀ p ∈ calculateRSI [5, 5, 5] [0, 1, 2] 2, p.2 = 0 :=
  rsi_flat_emits_zero [5, 5, 5] [0, 1, 2] 2 (by norm_num) (by norm_num)
    (by
      intro j hj
      simp only [List.length_cons, List.length_nil] at hj
      interval_cases j <;> rfl)

/-- C2 counterexample: the strictly increasing sequence 1, 2, 3 with window 2
(length = W + 1, all gains, no losses) makes the engine emit 50, not 100: the
substituted divisor 1 gives RS = avgGain = 1 and 100 - 100/(1 + 1) = 50. -/
theorem rsi_all_gains_counterexample :
    calculateRSI [1, 2, 3] [0, 1, 2] 2 = [(2, 50)] ∧ ((50 : ℚ) ≠ 100) := by
  constructor
  · norm_num [calculateRSI, rsiAux, delta, addDelta, removeDelta, rsiEmit]
  · norm_num

/-- C2 as amended: on a strictly increasing price sequence every emitted RSI
value is strictly between 0 and 100 (never a non-number): the zero-loss guard
substitutes divisor 1, giving the finite RS = gains/period, and the emitted
value 100 - 100/(1 + RS) is strictly below 100 rather than exactly 100. -/
theorem rsi_strictly_increasing_bounds (data ts : List ℚ) (period : ℕ) (hp : 1 ≤ period)
    (hinc : ∀ j, j < data.length - 1 → data.getD j 0 < data.getD (j + 1) 0) :
    ∀ p ∈ calculateRSI data ts period, 0 < p.2 ∧ p.2 < 100 := by
  intro p hmem
  obtain ⟨j, hj1, hj2, rfl⟩ := mem_calculateRSI data ts hp hmem
  have hpos : ∀ m ∈ Finset.Ico (j - period + 1) (j + 1), 0 < delta data m := by
    intro m hm
    rw [Finset.mem_Ico] at hm
    have h2 : m - 1 < data.length - 1 := by omega
    have h3 := hinc (m - 1) h2
    rw [show m - 1 + 1 = m from by omega] at h3
    unfold delta
    linarith
  have hg : 0 < windowGains data period j := by
    apply Finset.sum_pos
    · intro m hm
      unfold posDelta
      exact lt_max_of_lt_left (hpos m hm)
    · exact ⟨j, Finset.mem_Ico.mpr (by omega)⟩
  have hl : windowLosses data period j = 0 := by
    apply Finset.sum_eq_zero
    intro m hm
    unfold negDelta
    rw [max_eq_right (by linarith [hpos m hm])]
  refine ⟨?_, (rsiValueAt_bounds data period j).2⟩
  show 0 < rsiValueAt data period j
  rw [rsiValueAt_def, hl, rsiEmit_eq, zero_div, if_pos rfl, div_one]
  have hA : 0 < windowGains data period j / (period : ℚ) :=
    div_pos hg (by exact_mod_cast Nat.lt_of_lt_of_le Nat.zero_lt_one hp)
  have h1 : 100 / (1 + windowGains data period j / (period : ℚ)) < 100 :=
    div_lt_self (by norm_num) (by linarith)
  linarith

theorem rsi_strictly_increasing_bounds_witness :
    0 < ((2 : ℚ), (50 : ℚ)).2 ∧ ((2 : ℚ), (50 : ℚ)).2 < 100 :=
  rsi_strictly_increasing_bounds [1, 2, 3] [0, 1, 2] 2 (by norm_num)
    (by
      intro j hj
      simp only [List.length_cons, List.length_nil] at hj
      interval_cases j <;> norm_num [List.getD])
    (2, 50) (by norm_num [calculateRSI, rsiAux, delta, addDelta, removeDelta, rsiEmit])

/-! ### Claim theorems: the SMA engine -/

/-- C3: the SMA engine produces `data.length + 1 - period` points (so an
empty output, not an error, whenever `period` exceeds the input length); the
k-th point's value is the arithmetic mean of the `period` consecutive closing
values ending at input index `period - 1 + k`, and its timestamp is the
timestamp of that ending input sample, taken from the paired series. -/
theorem sma_length_and_values (data ts : List ℚ) (period : ℕ) (hp : 1 ≤ period) :
    (calculateSMA data ts period).length = data.length + 1 - period ∧
    ∀ k, k < data.length + 1 - period →
      (calculateSMA data ts period).getD k (0, 0)
        = (ts.getD (period - 1 + k) 0,
            (∑ j ∈ Finset.range period, data.getD (k + j) 0) / (period : ℚ)) := by
  rw [calculateSMA_closed data ts period]
  constructor
  · simp
    omega
  · intro k hk
    have hk1 : k < data.length - (period - 1) := by omega
    rw [List.getD_eq_getElem?_getD, List.getElem?_map,
      List.getElem?_range' (period - 1) 1 hk1]
    have hidx : period - 1 + 1 * k = period - 1 + k := by omega
    have hstart : period - 1 + k + 1 - period = k := by omega
    simp only [Option.map_some', Option.getD_some, hidx, hstart]
    rw [take_drop_sum data period k (by omega)]

theorem sma_length_and_values_witness :
    1 ≤ 2 ∧ (calculateSMA [1, 2, 3, 4] [10, 20, 30, 40] 2).length
      = ([1, 2, 3, 4] : List ℚ).length + 1 - 2 :=
  ⟨by norm_num, (sma_length_and_values [1, 2, 3, 4] [10, 20, 30, 40] 2 (by norm_num)).1⟩

/-! ### Claim theorems: support/resistance -/

/-- C5: for a nonempty price series, support and resistance are the minimum
and maximum of the trailing window of at most the 90 most recent closing
values (the whole series when shorter than 90, never more than 90 and always a
suffix); on the sample series 5, 3, 8, 1, 9 they are 1 and 9; on the empty
series both are absent, not numbers. -/
theorem support_resistance_minmax (prices : List (ℚ × ℚ)) (h : prices ≠ []) :
    (recentWindow (prices.map Prod.snd)).length = min prices.length 90 ∧
    recentWindow (prices.map Prod.snd) <:+ prices.map Prod.snd ∧
    (∃ m, (useTechnicalAnalysis prices).support = some m ∧
        m ∈ recentWindow (prices.map Prod.snd) ∧
        ∀ x ∈ recentWindow (prices.map Prod.snd), m ≤ x) ∧
    (∃ M, (useTechnicalAnalysis prices).resistance = some M ∧
        M ∈ recentWindow (prices.map Prod.snd) ∧
        ∀ x ∈ recentWindow (prices.map Prod.snd), x ≤ M) ∧
    (useTechnicalAnalysis [(0, 5), (1, 3), (2, 8), (3, 1), (4, 9)]).support = some 1 ∧
    (useTechnicalAnalysis [(0, 5), (1, 3), (2, 8), (3, 1), (4, 9)]).resistance = some 9 ∧
    (useTechnicalAnalysis []).support = none ∧
    (useTechnicalAnalysis []).resistance = none := by
  have hne : ¬ (prices.length = 0) := by simpa [List.length_eq_zero] using h
  have hsupp : (useTechnicalAnalysis prices).support
      = (recentWindow (prices.map Prod.snd)).min? := by
    unfold useTechnicalAnalysis
    rw [if_neg hne]
  have hres : (useTechnicalAnalysis prices).resistance
      = (recentWindow (prices.map Prod.snd)).max? := by
    unfold useTechnicalAnalysis
    rw [if_neg hne]
  have hlenw : (recentWindow (prices.map Prod.snd)).length = min prices.length 90 := by
    unfold recentWindow
    rw [List.length_drop, List.length_map]
    rcases le_total prices.length 90 with hcase | hcase
    · rw [min_eq_left hcase]
      omega
    · rw [min_eq_right hcase]
      omega
  have hwne : recentWindow (prices.map Prod.snd) ≠ [] := by
    apply List.length_pos.mp
    rw [hlenw]
    exact lt_min (List.length_pos.mpr h) (by norm_num)
  refine ⟨hlenw, ?_, ?_, ?_, ?_, ?_, rfl, rfl⟩
  · exact List.drop_suffix _ _
  · obtain ⟨m, hm⟩ := Option.ne_none_iff_exists'.mp
      (fun hnone => hwne (List.min?_eq_none_iff.mp hnone))
    refine ⟨m, by rw [hsupp, hm], List.min?_mem (fun a b => min_choice a b) hm, ?_⟩
    exact (List.le_min?_iff (fun a b c => le_min_iff) hm).mp (le_refl m)
  · obtain ⟨M, hM⟩ := Option.ne_none_iff_exists'.mp
      (fun hnone => hwne (List.max?_eq_none_iff.mp hnone))
    refine ⟨M, by rw [hres, hM], List.max?_mem (fun a b => max_choice a b) hM, ?_⟩
    exact (List.max?_le_iff (fun a b c => max_le_iff) hM).mp (le_refl M)
  · norm_num [useTechnicalAnalysis, recentWindow, List.min?, min_def]
  · norm_num [useTechnicalAnalysis, recentWindow, List.max?, max_def]

theorem support_resistance_minmax_witness :
    ([(0, 5), (1, 3), (2, 8), (3, 1), (4, 9)] : List (ℚ × ℚ)) ≠ [] ∧
    (recentWindow (([(0, 5), (1, 3), (2, 8), (3, 1), (4, 9)] : List (ℚ × ℚ)).map Prod.snd)).length
      = min ([(0, 5), (1, 3), (2, 8), (3, 1), (4, 9)] : List (ℚ × ℚ)).length 90 :=
  ⟨List.cons_ne_nil _ _,
    (support_resistance_minmax [(0, 5), (1, 3), (2, 8), (3, 1), (4, 9)]
      (List.cons_ne_nil _ _)).1⟩

/-! ### Claim theorems: the risk/return projector -/

theorem dailyReturnOf_eq (o : Option ℚ) : dailyReturnOf o = o.getD 0 / 100 := by
  cases o with
  | none => simp [dailyReturnOf]
  | some c =>
    simp only [dailyReturnOf, Option.getD_some]
    split_ifs with h
    · exact h.symm
    · rfl

/-- C4: the projector outputs one point per asset in input order (no
filtering): the k-th point is computed from the k-th asset, with
`dailyReturn = change24h / 100` (0 when the field is absent), risk coordinate
`|dailyReturn| * sqrt 365` and return coordinate `(1 + dailyReturn)^365 - 1`;
for `change24h = 10` this gives exactly `(1/10) * sqrt 365` and
`(11/10)^365 - 1`. -/
theorem risk_return_points (md : List CryptoStats) :
    (useRiskReturnAnalysis md).length = md.length ∧
    (∀ k, k < md.length →
      (useRiskReturnAnalysis md).getD k ⟨0, 0, "", ""⟩
        = { x := |(((md.getD k ⟨none, "", ""⟩).price_change_percentage_24h_in_currency.getD 0
                / 100 : ℚ) : ℝ)| * Real.sqrt 365
            y := (1 + (((md.getD k ⟨none, "", ""⟩).price_change_percentage_24h_in_currency.getD 0
                / 100 : ℚ) : ℝ)) ^ (365 : ℕ) - 1
            name := (md.getD k ⟨none, "", ""⟩).name
            image := (md.getD k ⟨none, "", ""⟩).image }) ∧
    useRiskReturnAnalysis [⟨some 10, "A", "I"⟩]
      = [⟨(1 / 10 : ℝ) * Real.sqrt 365, (11 / 10 : ℝ) ^ (365 : ℕ) - 1, "A", "I"⟩] := by
  refine ⟨?_, ?_, ?_⟩
  · unfold useRiskReturnAnalysis
    split_ifs with h0
    · rw [List.length_eq_zero.mp h0]
      rfl
    · rw [List.length_map]
  · intro k hk
    have hne : ¬ (md.length = 0) := by omega
    unfold useRiskReturnAnalysis
    rw [if_neg hne, List.getD_eq_getElem?_getD, List.getElem?_map,
      List.getElem?_eq_getElem hk]
    have hco : md.getD k ⟨none, "", ""⟩ = md.get ⟨k, hk⟩ := by
      rw [List.getD_eq_getElem?_getD, List.getElem?_eq_getElem hk]
      rfl
    simp only [Option.map_some', Option.getD_some, hco, dailyReturnOf_eq]
    rfl
  · have h1 : dailyReturnOf (some 10) = 1 / 10 := by norm_num [dailyReturnOf]
    have hc : ((1 / 10 : ℚ) : ℝ) = (1 / 10 : ℝ) := by push_cast; ring
    unfold useRiskReturnAnalysis
    norm_num [h1, hc, RiskReturnPoint.mk.injEq]

theorem risk_return_points_witness :
    0 < ([⟨some 10, "A", "I"⟩] : List CryptoStats).length ∧
    (useRiskReturnAnalysis [⟨some 10, "A", "I"⟩]).getD 0 ⟨0, 0, "", ""⟩
      = { x := |(((([⟨some 10, "A", "I"⟩] : List CryptoStats).getD 0
              ⟨none, "", ""⟩).price_change_percentage_24h_in_currency.getD 0
              / 100 : ℚ) : ℝ)| * Real.sqrt 365
          y := (1 + (((([⟨some 10, "A", "I"⟩] : List CryptoStats).getD 0
              ⟨none, "", ""⟩).price_change_percentage_24h_in_currency.getD 0
              / 100 : ℚ) : ℝ)) ^ (365 : ℕ) - 1
          name := (([⟨some 10, "A", "I"⟩] : List CryptoStats).getD 0 ⟨none, "", ""⟩).name
          image := (([⟨some 10, "A", "I"⟩] : List CryptoStats).getD 0 ⟨none, "", ""⟩).image } :=
  ⟨by norm_num, (risk_return_points [⟨some 10, "A", "I"⟩]).2.1 0 (by norm_num)⟩

/-! ### Claim theorems: empty inputs -/

/-- C9: every engine degrades to an empty output on an empty input — the
technical-analysis hook returns empty series and absent support/resistance,
the risk/return projector returns an empty list, and both indicator engines
return empty sequences — all as total functions, so no error is possible. -/
theorem engines_empty_input :
    useTechnicalAnalysis [] = ⟨[], [], [], none, none⟩ ∧
    useRiskReturnAnalysis [] = [] ∧
    (∀ ts period, calculateSMA [] ts period = []) ∧
    (∀ ts period, calculateRSI [] ts period = []) := by
  refine ⟨rfl, rfl, ?_, ?_⟩
  · intro ts period
    rfl
  · intro ts period
    rfl

end CryptoAnalysis
